import Mathlib

/-!
Verification of the TrustML `FederatedTaskManager` Solidity contract
(src/contracts/contracts/FederatedTaskManager.sol) and of the federated
averaging step of the aggregation engine, against the natural-language
specification of the repository.

The contract is embedded shallowly: contract storage becomes an explicit
`ContractState`, `msg.sender` and `block.timestamp` become explicit
arguments, and each external function becomes a Lean function returning
`Except SolError ContractState` (a `require` failure is an `error`, which
leaves storage unchanged).  Addresses are modelled as `Nat`, with `0`
playing the role of `address(0)`; the EVM guarantees `msg.sender` is never
the zero address, which appears as a `sender ≠ 0` hypothesis where needed.
-/

namespace FTM

/-- The `Submission` struct of the contract. -/
structure Submission where
  modelHash : String
  modelMetadata : String
  submitter : Nat
  timestamp : Nat
  accuracy : Nat
deriving DecidableEq, Repr

/-- The `Task` struct of the contract. -/
structure Task where
  taskId : String
  schemaHash : String
  creator : Nat
  timestamp : Nat
  submissions : List Submission
  finalModelHash : String
  finalModelMetadata : String
  finalAccuracy : Nat
deriving DecidableEq, Repr

/-- The default value of a `Task` storage slot: every field zeroed, as for a
never-written Solidity mapping entry. -/
def emptyTask : Task :=
  { taskId := "", schemaHash := "", creator := 0, timestamp := 0,
    submissions := [], finalModelHash := "", finalModelMetadata := "",
    finalAccuracy := 0 }

/-- The contract storage: `mapping(string => Task) tasks` and
`string[] taskIds`. -/
structure ContractState where
  tasks : String → Task
  taskIds : List String

/-- Storage at deployment: the mapping is all-default and `taskIds` empty. -/
def initialState : ContractState :=
  { tasks := fun _ => emptyTask, taskIds := [] }

/-- The revert reasons the contract can produce, one per `require` string:
`"Task already exists"`, `"Task not found"`,
`"Only task creator can submit final model"`,
`"Final model already submitted"`. -/
inductive SolError where
  | taskAlreadyExists
  | taskNotFound
  | onlyCreator
  | alreadyFinalized
deriving DecidableEq, Repr

/-- `createTask(taskId, schemaHash)`: reverts when `tasks[taskId].creator`
is not the zero address; otherwise writes `taskId`, `schemaHash`, `creator`
and `timestamp` into the slot (leaving the remaining fields as stored) and
pushes `taskId` onto `taskIds`. -/
def createTask (s : ContractState) (sender time : Nat)
    (taskId schemaHash : String) : Except SolError ContractState :=
  if (s.tasks taskId).creator ≠ 0 then
    .error .taskAlreadyExists
  else
    .ok { tasks := fun id =>
            if id = taskId then
              { s.tasks taskId with
                taskId := taskId, schemaHash := schemaHash,
                creator := sender, timestamp := time }
            else s.tasks id,
          taskIds := s.taskIds ++ [taskId] }

/-- `submitModel(taskId, modelHash, modelMetadata, accuracy)`: reverts when
the task slot has the zero creator ("Task not found"); otherwise pushes a
new `Submission` onto the task's `submissions` array.  The contract makes
no other check: there is no sealed-task check and no integrity check. -/
def submitModel (s : ContractState) (sender time : Nat)
    (taskId modelHash modelMetadata : String) (accuracy : Nat) :
    Except SolError ContractState :=
  let task := s.tasks taskId
  if task.creator = 0 then
    .error .taskNotFound
  else
    .ok { s with tasks := fun id =>
            if id = taskId then
              { task with submissions := task.submissions ++
                  [{ modelHash := modelHash, modelMetadata := modelMetadata,
                     submitter := sender, timestamp := time,
                     accuracy := accuracy }] }
            else s.tasks id }

/-- `submitFinalModel(taskId, finalModelHash, finalModelMetadata, accuracy)`:
reverts when the task does not exist, when the caller is not the creator,
or when `bytes(task.finalModelHash).length != 0`; otherwise stores the
final model hash, metadata and accuracy.  The contract checks quorum
nowhere, and the already-finalized test is emptiness of the stored hash. -/
def submitFinalModel (s : ContractState) (sender : Nat)
    (taskId finalModelHash finalModelMetadata : String) (accuracy : Nat) :
    Except SolError ContractState :=
  let task := s.tasks taskId
  if task.creator = 0 then
    .error .taskNotFound
  else if sender ≠ task.creator then
    .error .onlyCreator
  else if task.finalModelHash ≠ "" then
    .error .alreadyFinalized
  else
    .ok { s with tasks := fun id =>
            if id = taskId then
              { task with finalModelHash := finalModelHash,
                          finalModelMetadata := finalModelMetadata,
                          finalAccuracy := accuracy }
            else s.tasks id }

/-- `getTasks()`: the array `tasks[taskIds[0]], …, tasks[taskIds[n-1]]` in
`taskIds` order. -/
def getTasks (s : ContractState) : List Task :=
  s.taskIds.map fun id => s.tasks id

/-- One external call to the contract, with its caller and block time. -/
inductive Op where
  | create (sender time : Nat) (taskId schemaHash : String)
  | submit (sender time : Nat) (taskId modelHash modelMetadata : String)
      (accuracy : Nat)
  | final (sender : Nat) (taskId finalModelHash finalModelMetadata : String)
      (accuracy : Nat)

/-- Execute one call against a state. -/
def execOp (s : ContractState) : Op → Except SolError ContractState
  | .create sender time taskId schemaHash =>
      createTask s sender time taskId schemaHash
  | .submit sender time taskId mh mm acc =>
      submitModel s sender time taskId mh mm acc
  | .final sender taskId fh fm acc =>
      submitFinalModel s sender taskId fh fm acc

/-- The storage after one call: a revert leaves storage unchanged. -/
def applyOp (s : ContractState) (op : Op) : ContractState :=
  match execOp s op with
  | .ok s2 => s2
  | .error _ => s

/-- The storage after a sequence of calls. -/
def run (s : ContractState) (ops : List Op) : ContractState :=
  ops.foldl applyOp s

/-- The revert reason of a call result, if any. -/
def errOf : Except SolError ContractState → Option SolError
  | .ok _ => none
  | .error e => some e

/-- Whether a `create` call carries a nonzero caller (the EVM guarantees
this for every real transaction). -/
def createSenderNonzero : Op → Bool
  | .create sender _ _ _ => sender ≠ 0
  | _ => true

/-- A state with one task `"t1"` created by address `1` and no submissions. -/
def exCreated : ContractState :=
  applyOp initialState (.create 1 0 "t1" "schema-cid")

/-- `exCreated` after the creator finalizes `"t1"` with hash `"fhash"`. -/
def exFinalized : ContractState :=
  applyOp exCreated (.final 1 "t1" "fhash" "fmeta" 9100)

/-- `exCreated` after the creator finalizes `"t1"` storing the empty string
as final model hash. -/
def exEmptyFinalized : ContractState :=
  applyOp exCreated (.final 1 "t1" "" "fmeta" 9100)

/-- Modelled from the spec: a concrete Content Store assignment (contentId
to stored bytes).  The SDK-side store client (lib/trustml.py) is absent from
the source tree and the contract consults no store; this concrete store
only serves to exhibit an integrity mismatch. -/
def exStore : String → List Nat := fun _ => [1, 2, 3]

/-- Modelled from the spec: a deterministic recomputable hash of stored
bytes, used to state integrity mismatches concretely. -/
def exHash : List Nat → String := fun bs => toString (bs.foldl (fun a b => a + b) 0)

/-- C1 (amended): `submitModel` never checks finalization.  For every state
in which the task exists (nonzero creator) — in particular for every
finalized task — `submitModel` succeeds and appends the submission at the
end of the task's submission array; the contract has no `TaskSealed`
failure. -/
theorem submitModel_ignores_finalization (s : ContractState)
    (sender time : Nat) (taskId mh mm : String) (acc : Nat)
    (h : (s.tasks taskId).creator ≠ 0) :
    (submitModel s sender time taskId mh mm acc).isOk = true ∧
    ((applyOp s (.submit sender time taskId mh mm acc)).tasks taskId).submissions
      = (s.tasks taskId).submissions ++
        [{ modelHash := mh, modelMetadata := mm, submitter := sender,
           timestamp := time, accuracy := acc }] := by
  constructor
  · simp [submitModel, h, Except.isOk, Except.toBool]
  · simp [applyOp, execOp, submitModel, h]

/-- C1 (counterexample): a concrete finalized task that still accepts a
submission — the claimed `TaskSealed` failure does not occur. -/
theorem submitModel_after_finalize_succeeds :
    (exFinalized.tasks "t1").finalModelHash = "fhash" ∧
    (submitModel exFinalized 2 7 "t1" "m1" "meta" 9000).isOk = true ∧
    ((applyOp exFinalized (.submit 2 7 "t1" "m1" "meta" 9000)).tasks "t1").submissions.length = 1 := by
  refine ⟨rfl, rfl, rfl⟩

/-- C1 (witness): the amended theorem applied to the concrete finalized
state. -/
theorem submitModel_ignores_finalization_witness :
    (exFinalized.tasks "t1").creator ≠ 0 ∧
    (submitModel exFinalized 2 7 "t1" "m1" "meta" 9000).isOk = true :=
  ⟨by decide,
   (submitModel_ignores_finalization exFinalized 2 7 "t1" "m1" "meta" 9000
     (by decide)).1⟩

/-- C2 (amended): `submitFinalModel` enforces no quorum.  For every state in
which the task exists, the caller is its creator and the stored final model
hash is empty, the call succeeds and stores the final model hash — whatever
the task's submission count, including zero; the contract has no
`QuorumNotMet` failure. -/
theorem submitFinalModel_no_quorum_check (s : ContractState) (sender : Nat)
    (taskId fh fm : String) (acc : Nat)
    (h1 : (s.tasks taskId).creator ≠ 0)
    (h2 : sender = (s.tasks taskId).creator)
    (h3 : (s.tasks taskId).finalModelHash = "") :
    (submitFinalModel s sender taskId fh fm acc).isOk = true ∧
    ((applyOp s (.final sender taskId fh fm acc)).tasks taskId).finalModelHash = fh := by
  constructor
  · simp [submitFinalModel, h1, h2, h3, Except.isOk, Except.toBool]
  · simp [applyOp, execOp, submitFinalModel, h1, h2, h3]

/-- C2 (counterexample): a task with zero submissions — fewer than any
positive `minNodes` — whose creator finalization nevertheless succeeds and
records a final model. -/
theorem submitFinalModel_without_quorum_succeeds :
    (exCreated.tasks "t1").submissions.length = 0 ∧
    (submitFinalModel exCreated 1 "t1" "fh" "fm" 9100).isOk = true ∧
    ((applyOp exCreated (.final 1 "t1" "fh" "fm" 9100)).tasks "t1").finalModelHash = "fh" := by
  refine ⟨rfl, rfl, rfl⟩

/-- C2 (witness): the amended theorem applied to the concrete
zero-submission state. -/
theorem submitFinalModel_no_quorum_check_witness :
    ((exCreated.tasks "t1").creator ≠ 0 ∧ 1 = (exCreated.tasks "t1").creator ∧
      (exCreated.tasks "t1").finalModelHash = "") ∧
    (submitFinalModel exCreated 1 "t1" "fh" "fm" 9100).isOk = true :=
  ⟨⟨by decide, by decide, by decide⟩,
   (submitFinalModel_no_quorum_check exCreated 1 "t1" "fh" "fm" 9100
     (by decide) (by decide) (by decide)).1⟩

/-- C5: for every existing task and every caller other than its creator,
`submitFinalModel` reverts with the only-creator (`Unauthorized`) error and
leaves storage — in particular the final model fields — unchanged. -/
theorem submitFinalModel_unauthorized (s : ContractState) (sender : Nat)
    (taskId fh fm : String) (acc : Nat)
    (h1 : (s.tasks taskId).creator ≠ 0)
    (h2 : sender ≠ (s.tasks taskId).creator) :
    submitFinalModel s sender taskId fh fm acc = .error .onlyCreator ∧
    applyOp s (.final sender taskId fh fm acc) = s := by
  have he : submitFinalModel s sender taskId fh fm acc = .error .onlyCreator := by
    simp [submitFinalModel, h1, h2]
  refine ⟨he, ?_⟩
  simp [applyOp, execOp, he]

/-- C5 (witness): a non-creator address `2` attempting to finalize the task
created by address `1`. -/
theorem submitFinalModel_unauthorized_witness :
    (exCreated.tasks "t1").creator ≠ 0 ∧ 2 ≠ (exCreated.tasks "t1").creator ∧
    submitFinalModel exCreated 2 "t1" "fh" "fm" 1 = .error .onlyCreator ∧
    applyOp exCreated (.final 2 "t1" "fh" "fm" 1) = exCreated :=
  have h1 : (exCreated.tasks "t1").creator ≠ 0 := by decide
  have h2 : 2 ≠ (exCreated.tasks "t1").creator := by decide
  ⟨h1, h2,
   (submitFinalModel_unauthorized exCreated 2 "t1" "fh" "fm" 1 h1 h2).1,
   (submitFinalModel_unauthorized exCreated 2 "t1" "fh" "fm" 1 h1 h2).2⟩

/-- C6 (amended): `submitModel` performs no integrity verification.  For
every content store and recomputed hash under which the submitted
`contentId` (the `modelHash` argument) mismatches its stored bytes, the
call on an existing task still succeeds and records the submission; the
contract has no `IntegrityCheckFailed` failure and never consults a store. -/
theorem submitModel_no_integrity_check (store : String → List Nat)
    (hash : List Nat → String) (s : ContractState) (sender time : Nat)
    (taskId contentId mm : String) (acc : Nat)
    (hmis : hash (store contentId) ≠ contentId)
    (hex : (s.tasks taskId).creator ≠ 0) :
    (submitModel s sender time taskId contentId mm acc).isOk = true ∧
    ((applyOp s (.submit sender time taskId contentId mm acc)).tasks taskId).submissions
      = (s.tasks taskId).submissions ++
        [{ modelHash := contentId, modelMetadata := mm, submitter := sender,
           timestamp := time, accuracy := acc }] := by
  constructor
  · simp [submitModel, hex, Except.isOk, Except.toBool]
  · simp [applyOp, execOp, submitModel, hex]

/-- C6 (counterexample): a concrete submission whose `contentId` does not
match the hash of the bytes the modelled store returns for it, yet
`submitModel` succeeds and records it instead of failing with
`IntegrityCheckFailed`. -/
theorem submitModel_integrity_mismatch_succeeds :
    exHash (exStore "cid-mismatch") ≠ "cid-mismatch" ∧
    (submitModel exCreated 2 7 "t1" "cid-mismatch" "meta" 9000).isOk = true ∧
    ((applyOp exCreated (.submit 2 7 "t1" "cid-mismatch" "meta" 9000)).tasks "t1").submissions
      = [{ modelHash := "cid-mismatch", modelMetadata := "meta",
           submitter := 2, timestamp := 7, accuracy := 9000 }] := by
  refine ⟨by decide, rfl, rfl⟩

/-- C6 (witness): the amended theorem applied to the concrete mismatching
store and hash. -/
theorem submitModel_no_integrity_check_witness :
    exHash (exStore "cid-mismatch") ≠ "cid-mismatch" ∧
    (exCreated.tasks "t1").creator ≠ 0 ∧
    (submitModel exCreated 2 7 "t1" "cid-mismatch" "meta" 9000).isOk = true :=
  ⟨by decide, by decide,
   (submitModel_no_integrity_check exStore exHash exCreated 2 7 "t1"
     "cid-mismatch" "meta" 9000 (by decide) (by decide)).1⟩

/-- Inversion of a successful `submitFinalModel`: the task keeps its
creator and its submissions, and the stored final model hash is the
argument. -/
theorem submitFinalModel_ok_inv (s : ContractState) (sender : Nat)
    (taskId fh fm : String) (acc : Nat) (s2 : ContractState)
    (hok : submitFinalModel s sender taskId fh fm acc = .ok s2) :
    (s2.tasks taskId).creator = (s.tasks taskId).creator ∧
    (s2.tasks taskId).finalModelHash = fh ∧
    (s2.tasks taskId).finalModelMetadata = fm ∧
    (s2.tasks taskId).finalAccuracy = acc ∧
    (s2.tasks taskId).submissions = (s.tasks taskId).submissions ∧
    sender = (s.tasks taskId).creator ∧
    (s.tasks taskId).creator ≠ 0 := by
  unfold submitFinalModel at hok
  by_cases h1 : (s.tasks taskId).creator = 0
  · simp [h1] at hok
  · by_cases h2 : sender ≠ (s.tasks taskId).creator
    · simp [h1, h2] at hok
    · by_cases h3 : (s.tasks taskId).finalModelHash ≠ ""
      · simp [h1, h2, h3] at hok
      · simp [h1, h2, h3] at hok
        rw [← hok]
        exact ⟨by simp, by simp, by simp, by simp, by simp, not_not.mp h2, h1⟩

/-- C10: when an existing task's creator calls `submitFinalModel`, the call
reverts with the already-finalized error precisely when the stored
`finalModelHash` is a non-empty string; and a finalize that stores the
empty string leaves a state in which a later creator finalize still
succeeds. -/
theorem submitFinalModel_already_finalized_iff (s : ContractState)
    (sender : Nat) (taskId fh fm : String) (acc : Nat)
    (h1 : (s.tasks taskId).creator ≠ 0)
    (h2 : sender = (s.tasks taskId).creator) :
    (errOf (submitFinalModel s sender taskId fh fm acc) = some .alreadyFinalized
      ↔ (s.tasks taskId).finalModelHash ≠ "") ∧
    (∀ s2 fm2 acc2, submitFinalModel s sender taskId "" fm2 acc2 = .ok s2 →
      (submitFinalModel s2 sender taskId fh fm acc).isOk = true) := by
  constructor
  · by_cases h3 : (s.tasks taskId).finalModelHash = ""
    · simp [submitFinalModel, errOf, h1, h2, h3]
    · simp [submitFinalModel, errOf, h1, h2, h3]
  · intro s2 fm2 acc2 hok
    obtain ⟨hc, hh, -, -, -, -, -⟩ :=
      submitFinalModel_ok_inv s sender taskId "" fm2 acc2 s2 hok
    simp [submitFinalModel, hc, hh, h1, h2, Except.isOk, Except.toBool]

/-- C10 (witness): the theorem applied at the concrete one-task state, plus
the concrete double-finalization it licenses: an empty-hash finalize
followed by a successful second finalize. -/
theorem submitFinalModel_already_finalized_iff_witness :
    ((exCreated.tasks "t1").creator ≠ 0 ∧ 1 = (exCreated.tasks "t1").creator) ∧
    ¬(errOf (submitFinalModel exCreated 1 "t1" "x" "m" 5) = some .alreadyFinalized) :=
  have h1 : (exCreated.tasks "t1").creator ≠ 0 := by decide
  have h2 : 1 = (exCreated.tasks "t1").creator := by decide
  ⟨⟨h1, h2⟩,
   fun hc =>
     ((submitFinalModel_already_finalized_iff exCreated 1 "t1" "x" "m" 5
        h1 h2).1.mp hc) (by decide)⟩

/-- Inversion of a successful `createTask`: the slot was free (zero
creator) and now carries the given creator, schema hash and id, with
`taskId` appended to `taskIds`; other slots are untouched. -/
theorem createTask_ok_inv (s : ContractState) (sender time : Nat)
    (taskId schemaHash : String) (s2 : ContractState)
    (hok : createTask s sender time taskId schemaHash = .ok s2) :
    (s2.tasks taskId).creator = sender ∧
    (s2.tasks taskId).schemaHash = schemaHash ∧
    (s2.tasks taskId).taskId = taskId ∧
    (s2.tasks taskId).submissions = (s.tasks taskId).submissions ∧
    s2.taskIds = s.taskIds ++ [taskId] ∧
    (s.tasks taskId).creator = 0 ∧
    (∀ id, id ≠ taskId → s2.tasks id = s.tasks id) := by
  unfold createTask at hok
  by_cases hfree : (s.tasks taskId).creator ≠ 0
  · simp [hfree] at hok
  · simp [hfree] at hok
    rw [← hok]
    refine ⟨by simp, by simp, by simp, by simp, by simp, by simpa using hfree, ?_⟩
    intro id hid
    simp [hid]

/-- Effect of one call on an existing task's slot: the creator and schema
hash never change, and once the stored final model hash is non-empty the
final model fields never change either. -/
theorem applyOp_preserves (s : ContractState) (op : Op) (id : String)
    (h : (s.tasks id).creator ≠ 0) :
    ((applyOp s op).tasks id).creator = (s.tasks id).creator ∧
    ((applyOp s op).tasks id).schemaHash = (s.tasks id).schemaHash ∧
    ((s.tasks id).finalModelHash ≠ "" →
      ((applyOp s op).tasks id).finalModelHash = (s.tasks id).finalModelHash ∧
      ((applyOp s op).tasks id).finalModelMetadata = (s.tasks id).finalModelMetadata ∧
      ((applyOp s op).tasks id).finalAccuracy = (s.tasks id).finalAccuracy) := by
  cases op with
  | create sender time tid sh =>
    by_cases hex : (s.tasks tid).creator ≠ 0
    · simp [applyOp, execOp, createTask, hex]
    · by_cases hid : id = tid
      · exact absurd h (by subst hid; simpa using hex)
      · simp [applyOp, execOp, createTask, hex, hid]
  | submit sender time tid mh mm acc =>
    by_cases hex : (s.tasks tid).creator = 0
    · simp [applyOp, execOp, submitModel, hex]
    · by_cases hid : id = tid
      · subst hid; simp [applyOp, execOp, submitModel, hex]
      · simp [applyOp, execOp, submitModel, hex, hid]
  | final sender tid fh fm acc =>
    by_cases hex : (s.tasks tid).creator = 0
    · simp [applyOp, execOp, submitFinalModel, hex]
    · by_cases hsend : sender ≠ (s.tasks tid).creator
      · simp [applyOp, execOp, submitFinalModel, hex, hsend]
      · by_cases hfin : (s.tasks tid).finalModelHash ≠ ""
        · simp [applyOp, execOp, submitFinalModel, hex, hsend, hfin]
        · by_cases hid : id = tid
          · subst hid
            simp [applyOp, execOp, submitFinalModel, hex, hsend, hfin]
          · simp [applyOp, execOp, submitFinalModel, hex, hsend, hfin, hid]

/-- Effect of a call sequence on an existing task's slot: iterates
`applyOp_preserves`. -/
theorem run_preserves (ops : List Op) : ∀ (s : ContractState) (id : String),
    (s.tasks id).creator ≠ 0 →
    ((run s ops).tasks id).creator = (s.tasks id).creator ∧
    ((run s ops).tasks id).schemaHash = (s.tasks id).schemaHash ∧
    ((s.tasks id).finalModelHash ≠ "" →
      ((run s ops).tasks id).finalModelHash = (s.tasks id).finalModelHash ∧
      ((run s ops).tasks id).finalModelMetadata = (s.tasks id).finalModelMetadata ∧
      ((run s ops).tasks id).finalAccuracy = (s.tasks id).finalAccuracy) := by
  induction ops with
  | nil => exact fun s id _ => ⟨rfl, rfl, fun _ => ⟨rfl, rfl, rfl⟩⟩
  | cons op rest ih =>
    intro s id h
    obtain ⟨hc, hs, hf⟩ := applyOp_preserves s op id h
    have h2 : ((applyOp s op).tasks id).creator ≠ 0 := by rw [hc]; exact h
    obtain ⟨hc2, hs2, hf2⟩ := ih (applyOp s op) id h2
    have hrun : run s (op :: rest) = run (applyOp s op) rest := rfl
    rw [hrun]
    refine ⟨hc2.trans hc, hs2.trans hs, fun hne => ?_⟩
    obtain ⟨ha, hb, hcc⟩ := hf hne
    have hne2 : ((applyOp s op).tasks id).finalModelHash ≠ "" := by
      rw [ha]; exact hne
    obtain ⟨ha2, hb2, hc3⟩ := hf2 hne2
    exact ⟨ha2.trans ha, hb2.trans hb, hc3.trans hcc⟩

/-- C3: once `createTask` has succeeded for a `taskId`, every later
`createTask` call with the same id — after any further sequence of calls —
reverts with the already-exists error, and the task keeps the schema hash
and creator of the original creation. -/
theorem createTask_once (s : ContractState) (sender time : Nat)
    (taskId schemaHash : String) (s2 : ContractState)
    (hsender : sender ≠ 0)
    (hok : createTask s sender time taskId schemaHash = .ok s2)
    (ops : List Op) (sender2 time2 : Nat) (schemaHash2 : String) :
    errOf (createTask (run s2 ops) sender2 time2 taskId schemaHash2)
      = some .taskAlreadyExists ∧
    ((run s2 ops).tasks taskId).schemaHash = schemaHash ∧
    ((run s2 ops).tasks taskId).creator = sender := by
  obtain ⟨hc, hsch, -, -, -, -, -⟩ :=
    createTask_ok_inv s sender time taskId schemaHash s2 hok
  have hnz : (s2.tasks taskId).creator ≠ 0 := by rw [hc]; exact hsender
  obtain ⟨hcr, hsr, -⟩ := run_preserves ops s2 taskId hnz
  have hnz2 : ((run s2 ops).tasks taskId).creator ≠ 0 := by rw [hcr]; exact hnz
  refine ⟨?_, hsr.trans hsch, hcr.trans hc⟩
  simp [createTask, errOf, hnz2]

/-- C3 (witness): a created task, a later submission, then a duplicate
creation attempt, which reverts. -/
theorem createTask_once_witness :
    (1 : Nat) ≠ 0 ∧
    createTask initialState 1 0 "t1" "schema-cid" = .ok exCreated ∧
    errOf (createTask (run exCreated [Op.submit 2 7 "t1" "m" "mm" 5]) 2 9 "t1" "other")
      = some .taskAlreadyExists :=
  have h1 : (1 : Nat) ≠ 0 := by decide
  have h2 : createTask initialState 1 0 "t1" "schema-cid" = .ok exCreated := by rfl
  ⟨h1, h2,
   (createTask_once initialState 1 0 "t1" "schema-cid" exCreated h1 h2
     [Op.submit 2 7 "t1" "m" "mm" 5] 2 9 "other").1⟩

/-- C4 (counterexample): a first finalize that stores the empty-string
hash succeeds, after which a second finalize on the same task also
succeeds and replaces the stored final model — so a second finalize does
not always fail with `AlreadyFinalized`, and the stored values do not
always remain those of the first successful call. -/
theorem double_finalize_succeeds :
    (submitFinalModel exCreated 1 "t1" "" "fmeta" 9100).isOk = true ∧
    (submitFinalModel exEmptyFinalized 1 "t1" "h2" "m2" 7).isOk = true ∧
    ((applyOp exEmptyFinalized (.final 1 "t1" "h2" "m2" 7)).tasks "t1").finalModelHash = "h2" := by
  refine ⟨rfl, rfl, rfl⟩

/-- C4 (amended): after a finalize that stores a non-empty final model
hash succeeds, every later `submitFinalModel` on that task — after any
further sequence of calls — reverts (with the already-finalized error when
the caller is the finalizer/creator), and the stored final model hash,
metadata and accuracy remain those of the first successful call. -/
theorem finalize_at_most_once (s : ContractState) (sender : Nat)
    (taskId fh fm : String) (acc : Nat) (s2 : ContractState)
    (hfh : fh ≠ "")
    (hok : submitFinalModel s sender taskId fh fm acc = .ok s2)
    (ops : List Op) (sender2 : Nat) (fh2 fm2 : String) (acc2 : Nat) :
    (errOf (submitFinalModel (run s2 ops) sender2 taskId fh2 fm2 acc2)).isSome = true ∧
    (sender2 = sender →
      errOf (submitFinalModel (run s2 ops) sender2 taskId fh2 fm2 acc2)
        = some .alreadyFinalized) ∧
    ((run s2 ops).tasks taskId).finalModelHash = fh ∧
    ((run s2 ops).tasks taskId).finalModelMetadata = fm ∧
    ((run s2 ops).tasks taskId).finalAccuracy = acc := by
  obtain ⟨hc, hh, hm, ha, -, hsend, hnz0⟩ :=
    submitFinalModel_ok_inv s sender taskId fh fm acc s2 hok
  have hnz : (s2.tasks taskId).creator ≠ 0 := by rw [hc]; exact hnz0
  have hne : (s2.tasks taskId).finalModelHash ≠ "" := by rw [hh]; exact hfh
  obtain ⟨hcr, -, hfr⟩ := run_preserves ops s2 taskId hnz
  obtain ⟨hh2, hm2, ha2⟩ := hfr hne
  have hnzr : ((run s2 ops).tasks taskId).creator ≠ 0 := by rw [hcr]; exact hnz
  have hhr : ((run s2 ops).tasks taskId).finalModelHash ≠ "" := by
    rw [hh2]; exact hne
  refine ⟨?_, ?_, hh2.trans hh, hm2.trans hm, ha2.trans ha⟩
  · by_cases hs2 : sender2 = ((run s2 ops).tasks taskId).creator
    · simp [submitFinalModel, errOf, hnzr, hs2, hhr]
    · simp [submitFinalModel, errOf, hnzr, hs2]
  · intro heq
    have hs2 : sender2 = ((run s2 ops).tasks taskId).creator := by
      rw [heq, hcr, hc]; exact hsend
    simp [submitFinalModel, errOf, hnzr, hs2, hhr]

/-- C4 (witness): the amended theorem at the concrete finalized state. -/
theorem finalize_at_most_once_witness :
    (("fhash" : String) ≠ "" ∧
      submitFinalModel exCreated 1 "t1" "fhash" "fmeta" 9100 = .ok exFinalized) ∧
    errOf (submitFinalModel (run exFinalized []) 1 "t1" "h2" "m2" 7)
      = some .alreadyFinalized ∧
    ((run exFinalized []).tasks "t1").finalModelHash = "fhash" :=
  have h1 : ("fhash" : String) ≠ "" := by decide
  have h2 : submitFinalModel exCreated 1 "t1" "fhash" "fmeta" 9100 = .ok exFinalized := by rfl
  ⟨⟨h1, h2⟩,
   (finalize_at_most_once exCreated 1 "t1" "fhash" "fmeta" 9100 exFinalized
     h1 h2 [] 1 "h2" "m2" 7).2.1 rfl,
   (finalize_at_most_once exCreated 1 "t1" "fhash" "fmeta" 9100 exFinalized
     h1 h2 [] 1 "h2" "m2" 7).2.2.1⟩

/-- The ids of the tasks successfully created by a call sequence, in call
order, given the set `acc` of ids already present: a creation is accepted
exactly when its id is fresh. -/
def createdIdsFrom (acc : List String) : List Op → List String
  | [] => []
  | .create _ _ id _ :: rest =>
      if id ∈ acc then createdIdsFrom acc rest
      else id :: createdIdsFrom (acc ++ [id]) rest
  | .submit _ _ _ _ _ _ :: rest => createdIdsFrom acc rest
  | .final _ _ _ _ _ :: rest => createdIdsFrom acc rest

/-- The submissions a call sequence successfully records for task `tid`, in
call order, given the set `acc` of task ids already present: a submission
is accepted exactly when its task already exists. -/
def submissionsTo (acc : List String) (tid : String) : List Op → List Submission
  | [] => []
  | .create _ _ id _ :: rest =>
      submissionsTo (if id ∈ acc then acc else acc ++ [id]) tid rest
  | .submit sender time id mh mm a :: rest =>
      (if id = tid ∧ id ∈ acc then
        [{ modelHash := mh, modelMetadata := mm, submitter := sender,
           timestamp := time, accuracy := a }]
       else []) ++ submissionsTo acc tid rest
  | .final _ _ _ _ _ :: rest => submissionsTo acc tid rest

/-- The reachable-state invariant: `taskIds` has no duplicates, every
listed task has a nonzero creator and carries its own id, and every
unlisted slot is still all-default. -/
def Inv (s : ContractState) : Prop :=
  s.taskIds.Nodup ∧
  (∀ id, id ∈ s.taskIds → (s.tasks id).creator ≠ 0 ∧ (s.tasks id).taskId = id) ∧
  (∀ id, id ∉ s.taskIds → s.tasks id = emptyTask)

/-- The deployment state satisfies the invariant. -/
theorem inv_initial : Inv initialState := by
  refine ⟨List.nodup_nil, ?_, ?_⟩
  · intro id h
    simp [initialState] at h
  · intro id _
    rfl

/-- A creation whose id already has a nonzero creator reverts. -/
theorem applyOp_create_dup (s : ContractState) (sender time : Nat)
    (tid sh : String) (h : (s.tasks tid).creator ≠ 0) :
    applyOp s (.create sender time tid sh) = s := by
  simp [applyOp, execOp, createTask, h]

/-- A creation on a free slot writes the slot and appends the id. -/
theorem applyOp_create_new (s : ContractState) (sender time : Nat)
    (tid sh : String) (h : (s.tasks tid).creator = 0) :
    applyOp s (.create sender time tid sh) =
      { tasks := fun id =>
          if id = tid then
            { s.tasks tid with taskId := tid, schemaHash := sh,
                               creator := sender, timestamp := time }
          else s.tasks id,
        taskIds := s.taskIds ++ [tid] } := by
  simp [applyOp, execOp, createTask, h]

/-- A submission to a missing task reverts. -/
theorem applyOp_submit_missing (s : ContractState) (sender time : Nat)
    (tid mh mm : String) (a : Nat) (h : (s.tasks tid).creator = 0) :
    applyOp s (.submit sender time tid mh mm a) = s := by
  simp [applyOp, execOp, submitModel, h]

/-- A submission to an existing task appends to its submission array. -/
theorem applyOp_submit_ok (s : ContractState) (sender time : Nat)
    (tid mh mm : String) (a : Nat) (h : (s.tasks tid).creator ≠ 0) :
    applyOp s (.submit sender time tid mh mm a) =
      { s with tasks := fun id =>
          if id = tid then
            { s.tasks tid with submissions := (s.tasks tid).submissions ++
                [{ modelHash := mh, modelMetadata := mm, submitter := sender,
                   timestamp := time, accuracy := a }] }
          else s.tasks id } := by
  simp [applyOp, execOp, submitModel, h]

/-- A finalize call never changes `taskIds`, any submission array, any
creator or any stored task id; slots of other tasks are untouched; and it
is a no-op on a missing task. -/
theorem applyOp_final_effect (s : ContractState) (sender : Nat)
    (tid fh fm : String) (a : Nat) :
    (applyOp s (.final sender tid fh fm a)).taskIds = s.taskIds ∧
    (∀ id, ((applyOp s (.final sender tid fh fm a)).tasks id).submissions
        = (s.tasks id).submissions ∧
      ((applyOp s (.final sender tid fh fm a)).tasks id).creator
        = (s.tasks id).creator ∧
      ((applyOp s (.final sender tid fh fm a)).tasks id).taskId
        = (s.tasks id).taskId) ∧
    (∀ id, id ≠ tid →
      (applyOp s (.final sender tid fh fm a)).tasks id = s.tasks id) ∧
    ((s.tasks tid).creator = 0 → applyOp s (.final sender tid fh fm a) = s) := by
  by_cases h1 : (s.tasks tid).creator = 0
  · simp [applyOp, execOp, submitFinalModel, h1]
  · by_cases h2 : sender ≠ (s.tasks tid).creator
    · simp [applyOp, execOp, submitFinalModel, h1, h2]
    · by_cases h3 : (s.tasks tid).finalModelHash ≠ ""
      · simp [applyOp, execOp, submitFinalModel, h1, h2, h3]
      · refine ⟨by simp [applyOp, execOp, submitFinalModel, h1, h2, h3],
          ?_, ?_, fun hc => absurd hc h1⟩
        · intro id
          by_cases hid : id = tid
          · subst hid
            simp [applyOp, execOp, submitFinalModel, h1, h2, h3]
          · simp [applyOp, execOp, submitFinalModel, h1, h2, h3, hid]
        · intro id hid
          simp [applyOp, execOp, submitFinalModel, h1, h2, h3, hid]

/-- A fresh creation preserves the invariant, appends exactly its id, and
leaves every submission array unchanged. -/
theorem inv_create_new (s : ContractState) (sender time : Nat)
    (tid sh : String) (hInv : Inv s) (hsender : sender ≠ 0)
    (htid : tid ∉ s.taskIds) :
    Inv (applyOp s (.create sender time tid sh)) ∧
    (applyOp s (.create sender time tid sh)).taskIds = s.taskIds ++ [tid] ∧
    (∀ id, ((applyOp s (.create sender time tid sh)).tasks id).submissions
      = (s.tasks id).submissions) := by
  obtain ⟨hnd, hmem, hdef⟩ := hInv
  have hcr : (s.tasks tid).creator = 0 := by rw [hdef tid htid]; rfl
  rw [applyOp_create_new s sender time tid sh hcr]
  refine ⟨⟨?_, ?_, ?_⟩, rfl, ?_⟩
  · simp [List.nodup_append, hnd, htid]
  · intro id hid
    rcases List.mem_append.mp hid with hmem1 | hmem2
    · have hne : id ≠ tid := fun he => htid (he ▸ hmem1)
      simpa [hne] using hmem id hmem1
    · have he : id = tid := by simpa using hmem2
      subst he
      simp [hsender]
  · intro id hid
    have h1 : id ∉ s.taskIds := fun h => hid (List.mem_append.mpr (Or.inl h))
    have h2 : id ≠ tid := by
      intro he
      exact hid (List.mem_append.mpr (Or.inr (by simp [he])))
    simp [h2, hdef id h1]
  · intro id
    by_cases hid : id = tid
    · subst hid
      simp
    · simp [hid]

/-- A submission to an existing task preserves the invariant, keeps
`taskIds`, and appends exactly one entry to that task's submission
array. -/
theorem inv_submit_ok (s : ContractState) (sender time : Nat)
    (tid mh mm : String) (a : Nat) (hInv : Inv s) (htid : tid ∈ s.taskIds) :
    Inv (applyOp s (.submit sender time tid mh mm a)) ∧
    (applyOp s (.submit sender time tid mh mm a)).taskIds = s.taskIds ∧
    (∀ id, ((applyOp s (.submit sender time tid mh mm a)).tasks id).submissions
      = (s.tasks id).submissions ++
        (if id = tid then
          [{ modelHash := mh, modelMetadata := mm, submitter := sender,
             timestamp := time, accuracy := a }]
         else [])) := by
  obtain ⟨hnd, hmem, hdef⟩ := hInv
  have hcr : (s.tasks tid).creator ≠ 0 := (hmem tid htid).1
  rw [applyOp_submit_ok s sender time tid mh mm a hcr]
  refine ⟨⟨hnd, ?_, ?_⟩, rfl, ?_⟩
  · intro id hid
    by_cases he : id = tid
    · subst he
      simpa using hmem id hid
    · simpa [he] using hmem id hid
  · intro id hid
    have he : id ≠ tid := fun h => hid (h ▸ htid)
    simp [he, hdef id hid]
  · intro id
    by_cases he : id = tid
    · subst he
      simp
    · simp [he]

/-- A finalize call preserves the invariant, `taskIds` and every
submission array. -/
theorem inv_final (s : ContractState) (sender : Nat) (tid fh fm : String)
    (a : Nat) (hInv : Inv s) :
    Inv (applyOp s (.final sender tid fh fm a)) ∧
    (applyOp s (.final sender tid fh fm a)).taskIds = s.taskIds ∧
    (∀ id, ((applyOp s (.final sender tid fh fm a)).tasks id).submissions
      = (s.tasks id).submissions) := by
  obtain ⟨hnd, hmem, hdef⟩ := hInv
  obtain ⟨hids, hfields, huntouched, hmissing⟩ :=
    applyOp_final_effect s sender tid fh fm a
  refine ⟨⟨?_, ?_, ?_⟩, hids, fun id => (hfields id).1⟩
  · rw [hids]
    exact hnd
  · intro id hid
    rw [hids] at hid
    obtain ⟨h1, h2⟩ := hmem id hid
    exact ⟨by rw [(hfields id).2.1]; exact h1, by rw [(hfields id).2.2]; exact h2⟩
  · intro id hid
    rw [hids] at hid
    by_cases he : id = tid
    · subst he
      have h0 : (s.tasks id).creator = 0 := by rw [hdef id hid]; rfl
      rw [hmissing h0]
      exact hdef id hid
    · rw [huntouched id he]
      exact hdef id hid

/-- Replay correspondence: running a call sequence from any invariant
state appends exactly the accepted creations to `taskIds` and exactly the
accepted submissions to each task's submission array, and preserves the
invariant.  Creations are assumed to come from nonzero callers, as the EVM
guarantees. -/
theorem run_replay (ops : List Op) : ∀ s : ContractState, Inv s →
    (∀ op ∈ ops, createSenderNonzero op = true) →
    Inv (run s ops) ∧
    (run s ops).taskIds = s.taskIds ++ createdIdsFrom s.taskIds ops ∧
    (∀ id, ((run s ops).tasks id).submissions =
      (s.tasks id).submissions ++ submissionsTo s.taskIds id ops) := by
  induction ops with
  | nil =>
    intro s hInv _
    exact ⟨hInv, by simp [run, createdIdsFrom], fun id => by simp [run, submissionsTo]⟩
  | cons op rest ih =>
    intro s hInv hall
    have hallrest : ∀ o ∈ rest, createSenderNonzero o = true :=
      fun o ho => hall o (List.mem_cons_of_mem _ ho)
    have hrun : run s (op :: rest) = run (applyOp s op) rest := rfl
    cases op with
    | create sender time tid sh =>
      have hsender : sender ≠ 0 := by
        have := hall _ (List.mem_cons_self _ _)
        simpa [createSenderNonzero] using this
      by_cases htid : tid ∈ s.taskIds
      · have hcr : (s.tasks tid).creator ≠ 0 := (hInv.2.1 tid htid).1
        have hs2 : applyOp s (.create sender time tid sh) = s :=
          applyOp_create_dup s sender time tid sh hcr
        obtain ⟨a, b, c⟩ := ih s hInv hallrest
        rw [hrun, hs2]
        refine ⟨a, ?_, ?_⟩
        · rw [b]
          simp [createdIdsFrom, htid]
        · intro id
          rw [c id]
          simp [submissionsTo, htid]
      · obtain ⟨hInv2, hids2, hsubs2⟩ :=
          inv_create_new s sender time tid sh hInv hsender htid
        obtain ⟨a, b, c⟩ := ih (applyOp s (.create sender time tid sh)) hInv2 hallrest
        rw [hrun]
        refine ⟨a, ?_, ?_⟩
        · rw [b, hids2]
          simp [createdIdsFrom, htid]
        · intro id
          rw [c id, hsubs2 id, hids2]
          simp [submissionsTo, htid]
    | submit sender time tid mh mm a =>
      by_cases htid : tid ∈ s.taskIds
      · obtain ⟨hInv2, hids2, hsubs2⟩ :=
          inv_submit_ok s sender time tid mh mm a hInv htid
        obtain ⟨ha, hb, hc⟩ := ih (applyOp s (.submit sender time tid mh mm a)) hInv2 hallrest
        rw [hrun]
        refine ⟨ha, ?_, ?_⟩
        · rw [hb, hids2]
          simp [createdIdsFrom]
        · intro id
          rw [hc id, hsubs2 id, hids2]
          by_cases he : tid = id
          · subst he
            simp [submissionsTo, htid, List.append_assoc]
          · have he2 : ¬id = tid := fun hh => he hh.symm
            simp [submissionsTo, htid, he, he2]
      · have hcr : (s.tasks tid).creator = 0 := by
          rw [hInv.2.2 tid htid]; rfl
        have hs2 : applyOp s (.submit sender time tid mh mm a) = s :=
          applyOp_submit_missing s sender time tid mh mm a hcr
        obtain ⟨ha, hb, hc⟩ := ih s hInv hallrest
        rw [hrun, hs2]
        refine ⟨ha, ?_, ?_⟩
        · rw [hb]
          simp [createdIdsFrom]
        · intro id
          rw [hc id]
          simp [submissionsTo, htid]
    | final sender tid fh fm a =>
      obtain ⟨hInv2, hids2, hsubs2⟩ := inv_final s sender tid fh fm a hInv
      obtain ⟨ha, hb, hc⟩ := ih (applyOp s (.final sender tid fh fm a)) hInv2 hallrest
      rw [hrun]
      refine ⟨ha, ?_, ?_⟩
      · rw [hb, hids2]
        simp [createdIdsFrom]
      · intro id
        rw [hc id, hsubs2 id, hids2]
        simp [submissionsTo]

/-- C9: starting from deployment, `getTasks` lists every successfully
created task exactly once (no duplicates) in creation order, and each
task's submission array is exactly the sequence of its accepted
submissions in call order — each new one appended at the end.  Creations
are assumed to come from nonzero callers, as the EVM guarantees. -/
theorem getTasks_ledger_order (ops : List Op)
    (h : ops.all createSenderNonzero = true) :
    (getTasks (run initialState ops)).map Task.taskId = createdIdsFrom [] ops ∧
    ((getTasks (run initialState ops)).map Task.taskId).Nodup ∧
    (∀ id, ((run initialState ops).tasks id).submissions = submissionsTo [] id ops) := by
  have hall : ∀ op ∈ ops, createSenderNonzero op = true := by
    simpa [List.all_eq_true] using h
  obtain ⟨⟨hnd, hmem, -⟩, hids, hsubs⟩ :=
    run_replay ops initialState inv_initial hall
  have hids0 : (run initialState ops).taskIds = createdIdsFrom [] ops := by
    simpa [initialState] using hids
  have hmap : (getTasks (run initialState ops)).map Task.taskId
      = (run initialState ops).taskIds := by
    unfold getTasks
    rw [List.map_map]
    have : ∀ id ∈ (run initialState ops).taskIds,
        (Task.taskId ∘ fun id => (run initialState ops).tasks id) id = id :=
      fun id hid => (hmem id hid).2
    rw [List.map_congr_left this]
    simp
  refine ⟨hmap.trans hids0, ?_, ?_⟩
  · rw [hmap]
    exact hnd
  · intro id
    have := hsubs id
    simpa [initialState, emptyTask] using this

/-- C9 (witness): two creations and two submissions; `getTasks` lists the
tasks in creation order and the first task's submissions in call order. -/
theorem getTasks_ledger_order_witness :
    ([Op.create 1 0 "t1" "s1", Op.create 4 1 "t2" "s2",
      Op.submit 2 3 "t1" "m1" "x" 5, Op.submit 3 4 "t1" "m2" "y" 6].all
        createSenderNonzero = true) ∧
    (getTasks (run initialState
      [Op.create 1 0 "t1" "s1", Op.create 4 1 "t2" "s2",
       Op.submit 2 3 "t1" "m1" "x" 5, Op.submit 3 4 "t1" "m2" "y" 6])).map Task.taskId
      = ["t1", "t2"] ∧
    ((run initialState
      [Op.create 1 0 "t1" "s1", Op.create 4 1 "t2" "s2",
       Op.submit 2 3 "t1" "m1" "x" 5, Op.submit 3 4 "t1" "m2" "y" 6]).tasks "t1").submissions
      = [{ modelHash := "m1", modelMetadata := "x", submitter := 2,
           timestamp := 3, accuracy := 5 },
         { modelHash := "m2", modelMetadata := "y", submitter := 3,
           timestamp := 4, accuracy := 6 }] :=
  have hall : [Op.create 1 0 "t1" "s1", Op.create 4 1 "t2" "s2",
      Op.submit 2 3 "t1" "m1" "x" 5, Op.submit 3 4 "t1" "m2" "y" 6].all
        createSenderNonzero = true := by decide
  have hthm := getTasks_ledger_order
    [Op.create 1 0 "t1" "s1", Op.create 4 1 "t2" "s2",
     Op.submit 2 3 "t1" "m1" "x" 5, Op.submit 3 4 "t1" "m2" "y" 6] hall
  ⟨hall, hthm.1.trans (by decide), (hthm.2.2 "t1").trans (by decide)⟩

/-- Modelled from the spec: the per-tensor shape of a weight tensor set
(tensors are rows of exact rationals; the repository's averaging code,
lib/trustml.py, is absent from the source tree). -/
def shape2 (t : List (List ℚ)) : List Nat := t.map List.length

/-- Modelled from the spec: element-wise addition of two weight tensor
sets. -/
def add2 (x y : List (List ℚ)) : List (List ℚ) :=
  List.zipWith (List.zipWith (· + ·)) x y

/-- Modelled from the spec: the all-zero tensor set of a given shape. -/
def zeros2 (sh : List Nat) : List (List ℚ) :=
  sh.map fun n => List.replicate n 0

/-- Modelled from the spec: scaling of a weight tensor set by a rational
constant. -/
def scale2 (c : ℚ) (t : List (List ℚ)) : List (List ℚ) :=
  t.map fun r => r.map fun x => c * x

/-- Modelled from the spec: the structural-shape check of the Aggregation
Engine (step 4): every included tensor set must have the shape of the
first. -/
def sameShape : List (List (List ℚ)) → Bool
  | [] => true
  | t :: ts => ts.all fun u => decide (shape2 u = shape2 t)

/-- Modelled from the spec: unweighted federated averaging (Aggregation
Engine, step 5) — the element-wise arithmetic mean, position-by-position
and tensor-by-tensor, of the included weight tensor sets, computed as
sum-then-divide over exact rationals; `none` on an empty set or on a shape
mismatch (`IncompatibleShapes`). -/
def federatedAverage (l : List (List (List ℚ))) : Option (List (List ℚ)) :=
  match l with
  | [] => none
  | t :: ts =>
    if sameShape (t :: ts) then
      some (scale2 (1 / (((t :: ts).length : ℚ)))
        ((t :: ts).foldr add2 (zeros2 (shape2 t))))
    else none

/-- Position access into a replicated zero row is zero. -/
theorem replicate_getD (n j : Nat) : (List.replicate n (0:ℚ)).getD j 0 = 0 := by
  induction n generalizing j with
  | zero => simp
  | succ n ih =>
    cases j with
    | zero => simp [List.replicate]
    | succ j => simp [List.replicate, List.getD_cons_succ, ih]

/-- Position access into the zero tensor set is zero. -/
theorem zeros2_getD (sh : List Nat) (i j : Nat) :
    (((zeros2 sh).getD i []).getD j (0:ℚ)) = 0 := by
  induction sh generalizing i with
  | nil => simp [zeros2]
  | cons n sh ih =>
    cases i with
    | zero => simp [zeros2, replicate_getD]
    | succ i => simpa [zeros2, List.getD_cons_succ] using ih i

/-- Position access into a scaled row multiplies by the constant. -/
theorem map_mul_getD (c : ℚ) (r : List ℚ) (j : Nat) :
    (r.map fun x => c * x).getD j 0 = c * r.getD j 0 := by
  induction r generalizing j with
  | nil => simp
  | cons a r ih =>
    cases j with
    | zero => simp
    | succ j =>
      simp only [List.map_cons, List.getD_cons_succ]
      exact ih j

/-- Row access into a scaled tensor set scales the row. -/
theorem scale2_row (c : ℚ) (t : List (List ℚ)) (i : Nat) :
    (scale2 c t).getD i [] = (t.getD i []).map fun x => c * x := by
  induction t generalizing i with
  | nil => simp [scale2]
  | cons r t ih =>
    cases i with
    | zero => simp [scale2]
    | succ i => simpa [scale2, List.getD_cons_succ] using ih i

/-- Position access into a scaled tensor set multiplies by the
constant. -/
theorem scale2_getD (c : ℚ) (t : List (List ℚ)) (i j : Nat) :
    ((scale2 c t).getD i []).getD j 0 = c * ((t.getD i []).getD j 0) := by
  rw [scale2_row, map_mul_getD]

/-- Position access into a zipWith-sum of equally long rows adds the
entries. -/
theorem zipWith_add_getD (x y : List ℚ) (h : x.length = y.length) (j : Nat) :
    (List.zipWith (· + ·) x y).getD j 0 = x.getD j 0 + y.getD j 0 := by
  induction x generalizing y j with
  | nil =>
    have : y = [] := List.length_eq_zero.mp h.symm
    subst this
    simp
  | cons a x ih =>
    cases y with
    | nil => simp at h
    | cons b y =>
      cases j with
      | zero => simp
      | succ j =>
        simp only [List.zipWith_cons_cons, List.getD_cons_succ]
        exact ih y (by simpa using h) j

/-- Row access into an element-wise sum of equally long tensor sets. -/
theorem add2_row (x y : List (List ℚ)) (h : x.length = y.length) (i : Nat) :
    (add2 x y).getD i [] = List.zipWith (· + ·) (x.getD i []) (y.getD i []) := by
  induction x generalizing y i with
  | nil =>
    have : y = [] := List.length_eq_zero.mp h.symm
    subst this
    simp [add2]
  | cons r x ih =>
    cases y with
    | nil => simp at h
    | cons q y =>
      cases i with
      | zero => simp [add2]
      | succ i =>
        simp only [add2, List.zipWith_cons_cons, List.getD_cons_succ]
        exact ih y (by simpa using h) i

/-- Equal shapes give equal row lengths at every index. -/
theorem shape2_row_len (x y : List (List ℚ)) (h : shape2 x = shape2 y)
    (i : Nat) : (x.getD i []).length = (y.getD i []).length := by
  induction x generalizing y i with
  | nil =>
    have : y = [] := by
      have h2 : shape2 y = [] := h.symm
      simpa [shape2, List.map_eq_nil_iff] using h2
    subst this
    rfl
  | cons r x ih =>
    cases y with
    | nil => simp [shape2] at h
    | cons q y =>
      simp only [shape2, List.map_cons, List.cons.injEq] at h
      cases i with
      | zero => simpa using h.1
      | succ i =>
        simp only [List.getD_cons_succ]
        exact ih y (by simpa [shape2] using h.2) i

/-- Position access into an element-wise sum of equally shaped tensor
sets adds the entries. -/
theorem add2_getD (x y : List (List ℚ)) (h : shape2 x = shape2 y)
    (i j : Nat) :
    ((add2 x y).getD i []).getD j 0
      = (x.getD i []).getD j 0 + (y.getD i []).getD j 0 := by
  have hlen : x.length = y.length := by
    have := congrArg List.length h
    simpa [shape2] using this
  rw [add2_row x y hlen i]
  exact zipWith_add_getD _ _ (shape2_row_len x y h i) j

/-- Element-wise addition of equally shaped tensor sets keeps the
shape. -/
theorem shape2_add2 (x y : List (List ℚ)) (h : shape2 x = shape2 y) :
    shape2 (add2 x y) = shape2 x := by
  induction x generalizing y with
  | nil => simp [add2, shape2]
  | cons r x ih =>
    cases y with
    | nil => simp [shape2] at h
    | cons q y =>
      simp only [shape2, List.map_cons, List.cons.injEq] at h
      simp only [add2, List.zipWith_cons_cons, shape2, List.map_cons,
        List.cons.injEq]
      constructor
      · simp [h.1]
      · simpa [add2, shape2] using ih y (by simpa [shape2] using h.2)

/-- The zero tensor set has the requested shape. -/
theorem shape2_zeros2 (sh : List Nat) : shape2 (zeros2 sh) = sh := by
  induction sh with
  | nil => rfl
  | cons n sh ih => simp [shape2, zeros2] at ih ⊢; exact ih

/-- Folding element-wise addition over equally shaped tensor sets keeps
the shape. -/
theorem foldr_add2_shape (l : List (List (List ℚ))) (sh : List Nat)
    (h : ∀ t ∈ l, shape2 t = sh) :
    shape2 (l.foldr add2 (zeros2 sh)) = sh := by
  induction l with
  | nil => exact shape2_zeros2 sh
  | cons t ts ih =>
    have ht : shape2 t = sh := h t (by simp)
    have hts : shape2 (ts.foldr add2 (zeros2 sh)) = sh :=
      ih fun u hu => h u (by simp [hu])
    simp only [List.foldr_cons]
    rw [shape2_add2 t _ (ht.trans hts.symm)]
    exact ht

/-- Position access into the fold of element-wise additions is the sum of
the position accesses. -/
theorem foldr_add2_getD (l : List (List (List ℚ))) (sh : List Nat)
    (h : ∀ t ∈ l, shape2 t = sh) (i j : Nat) :
    ((l.foldr add2 (zeros2 sh)).getD i []).getD j 0
      = (l.map fun t => (t.getD i []).getD j 0).sum := by
  induction l with
  | nil => simpa using zeros2_getD sh i j
  | cons t ts ih =>
    have ht : shape2 t = sh := h t (by simp)
    have hts : ∀ u ∈ ts, shape2 u = sh := fun u hu => h u (by simp [hu])
    have hsh : shape2 t = shape2 (ts.foldr add2 (zeros2 sh)) :=
      ht.trans (foldr_add2_shape ts sh hts).symm
    simp only [List.foldr_cons, List.map_cons, List.sum_cons]
    rw [add2_getD t _ hsh i j, ih hts]

/-- C7: whenever `federatedAverage` returns a result, every position of
the result — across every tensor and every element index, via
default-zero access — equals the arithmetic mean of that position over
the included tensor sets; the aggregated model is the element-wise mean,
position-by-position and tensor-by-tensor. -/
theorem federatedAverage_is_mean (l : List (List (List ℚ)))
    (m : List (List ℚ)) (h : federatedAverage l = some m) (i j : Nat) :
    (m.getD i []).getD j 0
      = (l.map fun t => (t.getD i []).getD j 0).sum / (l.length : ℚ) := by
  match l with
  | [] => simp [federatedAverage] at h
  | t :: ts =>
    by_cases hs : sameShape (t :: ts) = true
    · have hsh : ∀ u ∈ t :: ts, shape2 u = shape2 t := by
        intro u hu
        rcases List.mem_cons.mp hu with he | hm
        · rw [he]
        · have := (by simpa [sameShape, List.all_eq_true] using hs :
            ∀ u ∈ ts, shape2 u = shape2 t)
          exact this u hm
      simp only [federatedAverage, hs, if_true, Option.some.injEq] at h
      rw [← h, scale2_getD, foldr_add2_getD (t :: ts) (shape2 t) hsh i j,
        one_div_mul_eq_div]
    · simp [federatedAverage, hs] at h

/-- C7 (witness): the spec's concrete scenario — averaging the two
tensor sets [[1,2],[3]] and [[3,4],[5]] yields exactly [[2,3],[4]], and
the theorem's mean formula holds at position (0,1). -/
theorem federatedAverage_is_mean_witness :
    federatedAverage [[[1,2],[3]], [[3,4],[5]]] = some [[2,3],[4]] ∧
    (([[2,3],[4]] : List (List ℚ)).getD 0 []).getD 1 0
      = (([[[1,2],[3]], [[3,4],[5]]] : List (List (List ℚ))).map
          fun t => (t.getD 0 []).getD 1 0).sum
        / (([[[1,2],[3]], [[3,4],[5]]] : List (List (List ℚ))).length : ℚ) :=
  have h : federatedAverage [[[1,2],[3]], [[3,4],[5]]] = some [[2,3],[4]] := by
    simp [federatedAverage, sameShape, shape2, scale2, add2, zeros2,
      List.replicate]
    norm_num
  ⟨h, federatedAverage_is_mean [[[1,2],[3]], [[3,4],[5]]] [[2,3],[4]] h 0 1⟩

/-- A generic left-commutativity transfer for zipWith. -/
theorem zipWith_lcomm {α : Type} (f : α → α → α)
    (hf : ∀ a b c, f a (f b c) = f b (f a c)) :
    ∀ x y z : List α,
      List.zipWith f x (List.zipWith f y z)
        = List.zipWith f y (List.zipWith f x z) := by
  intro x
  induction x with
  | nil => intro y z; cases y <;> cases z <;> simp
  | cons a x ih =>
    intro y z
    cases y with
    | nil => simp
    | cons b y =>
      cases z with
      | nil => simp
      | cons c z => simp [hf, ih]

/-- Element-wise tensor-set addition is left-commutative. -/
theorem add2_left_comm (x y z : List (List ℚ)) :
    add2 x (add2 y z) = add2 y (add2 x z) :=
  zipWith_lcomm _
    (fun a b c => zipWith_lcomm _ (fun p q r => add_left_comm p q r) a b c)
    x y z

/-- Folding element-wise addition is invariant under permutation of the
tensor sets. -/
theorem foldr_add2_perm (l l' : List (List (List ℚ))) (h : l.Perm l')
    (z : List (List ℚ)) : l.foldr add2 z = l'.foldr add2 z := by
  induction h with
  | nil => rfl
  | cons x h ih => simp [List.foldr_cons, ih]
  | swap x y l => simp [List.foldr_cons, add2_left_comm]
  | trans h1 h2 ih1 ih2 => exact ih1.trans ih2

/-- The shape check only depends on the set of member shapes. -/
theorem sameShape_iff (l : List (List (List ℚ))) :
    sameShape l = true ↔ ∀ x ∈ l, ∀ y ∈ l, shape2 x = shape2 y := by
  cases l with
  | nil => simp [sameShape]
  | cons t ts =>
    simp only [sameShape, List.all_eq_true, decide_eq_true_eq]
    constructor
    · intro hall x hx y hy
      have hx2 : shape2 x = shape2 t := by
        rcases List.mem_cons.mp hx with he | hm
        · rw [he]
        · exact hall x hm
      have hy2 : shape2 y = shape2 t := by
        rcases List.mem_cons.mp hy with he | hm
        · rw [he]
        · exact hall y hm
      exact hx2.trans hy2.symm
    · intro hall u hu
      exact hall u (by simp [hu]) t (by simp)

/-- C8: federated averaging is permutation-invariant — averaging any
permutation of the included tensor sets yields exactly the same result
(over exact rationals, hence within every floating-point tolerance). -/
theorem federatedAverage_perm_invariant (l l' : List (List (List ℚ)))
    (h : l.Perm l') : federatedAverage l = federatedAverage l' := by
  cases l with
  | nil =>
    have : l' = [] := h.symm.eq_nil
    subst this
    rfl
  | cons t ts =>
    cases l' with
    | nil => exact absurd h.eq_nil (by simp)
    | cons u us =>
      by_cases hs : sameShape (t :: ts) = true
      · have hs' : sameShape (u :: us) = true := by
          rw [sameShape_iff] at hs ⊢
          intro x hx y hy
          exact hs x (h.mem_iff.mpr hx) y (h.mem_iff.mpr hy)
        have hhead : shape2 u = shape2 t :=
          (sameShape_iff (t :: ts)).mp hs u (h.mem_iff.mpr (by simp)) t (by simp)
        have hlen : (t :: ts).length = (u :: us).length := h.length_eq
        simp only [federatedAverage, hs, hs', if_true]
        rw [hhead, ← hlen, foldr_add2_perm _ _ h]
      · have hs' : ¬ sameShape (u :: us) = true := by
          intro hcon
          apply hs
          rw [sameShape_iff] at hcon ⊢
          intro x hx y hy
          exact hcon x (h.mem_iff.mp hx) y (h.mem_iff.mp hy)
        simp [federatedAverage, hs, hs']

/-- C8 (witness): averaging [A, B, C] and averaging [C, A, B] agree on a
concrete triple. -/
theorem federatedAverage_perm_invariant_witness :
    ([[[1,2]], [[3,4]], [[5,7]]] : List (List (List ℚ))).Perm
      [[[5,7]], [[1,2]], [[3,4]]] ∧
    federatedAverage [[[1,2]], [[3,4]], [[5,7]]]
      = federatedAverage [[[5,7]], [[1,2]], [[3,4]]] :=
  have h : ([[[1,2]], [[3,4]], [[5,7]]] : List (List (List ℚ))).Perm
      [[[5,7]], [[1,2]], [[3,4]]] := by decide
  ⟨h, federatedAverage_perm_invariant _ _ h⟩

end FTM
